import Mathlib

/-!
Verification development for the BMX MXF reader core.

Shallow embedding of the parts of `src/mxf_reader/MXFFileReader.cpp` and
`src/essence_parser/RawEssenceReader.cpp` that the checked properties are
about, together with models (from the specification) of the rate-conversion
primitives that live in `Utils.cpp`, a file of this repository that is not
part of the provided sources.

Conventions:
- machine integers are modelled as `Nat` / `Int`, with an explicit
  `% 4294967296` (`u32`) exactly where 32-bit wrap-around happens in the
  C++ code;
- collaborator calls (the essence source, the essence reader, the index
  table, external readers) are modelled as explicit oracle parameters;
- a C++ function that can throw is modelled with `Option` (`none` is the
  exception having escaped the modelled scope);
- `/` and `%` on `Int` are Euclidean (divisor positive in all uses below).
-/

/-- Reduction modulo 2^32, the behaviour of a C++ `uint32_t` value. -/
def u32 (x : Nat) : Nat := x % 4294967296

/-- Subtraction of `uint32_t` values, wrapping modulo 2^32. -/
def u32sub (a b : Nat) : Nat := (u32 a + (4294967296 - u32 b)) % 4294967296

/-- Sum of the first `m` elements of a sample sequence. -/
def sumTake (seq : List Nat) (m : Nat) : Nat := (seq.take m).sum

/-- Number of whole sequence elements consumed by a remainder `r`:
the largest `m` with `sumTake seq m ≤ r` (elements taken in order). -/
def consume : List Nat → Nat → Nat
  | [], _ => 0
  | e :: rest, r => if e ≤ r then consume rest (r - e) + 1 else 0

/-- Well-formed sample sequence: non-empty, all entries positive.
`get_sample_sequence` only ever produces such sequences. -/
def seqOK (seq : List Nat) : Prop := seq ≠ [] ∧ ∀ x ∈ seq, 0 < x

instance (seq : List Nat) : Decidable (seqOK seq) := by
  unfold seqOK; infer_instance

/-- Modelled from the spec: `bmx::convert_position_higher` (`Utils.cpp`, not
under `src/`). Spec 4.2: sum `seq` elements for `p % len(seq)` and add
`(p / len(seq)) * S` where `S` is the period sum. Division is Euclidean so
that the round-trip identity holds at all positions. -/
def convert_position_higher (p : Int) (seq : List Nat) : Int :=
  p / (seq.length : Int) * (seq.sum : Int) + (sumTake seq (p % (seq.length : Int)).toNat : Int)

/-- Modelled from the spec: `bmx::convert_position_lower` (`Utils.cpp`, not
under `src/`). Spec 4.2: find how many complete periods fit in `p`,
multiply by `len(seq)`, then consume the remainder by summing sequence
elements until it is exhausted. -/
def convert_position_lower (q : Int) (seq : List Nat) : Int :=
  q / (seq.sum : Int) * (seq.length : Int) + (consume seq (q % (seq.sum : Int)).toNat : Int)

/-- Modelled from the spec: `bmx::convert_duration_higher` with a start
position (`Utils.cpp`, not under `src/`). Spec 4.2: duration conversion is
start-position-relative position arithmetic. -/
def convert_duration_higher (d : Nat) (p : Int) (seq : List Nat) : Int :=
  convert_position_higher (p + d) seq - convert_position_higher p seq

/-- Modelled from the spec: `bmx::convert_duration_lower` with a start
position (`Utils.cpp`, not under `src/`). Spec 4.2: duration conversion is
start-position-relative position arithmetic. -/
def convert_duration_lower (d : Nat) (q : Int) (seq : List Nat) : Int :=
  convert_position_lower (q + d) seq - convert_position_lower q seq

/-- Modelled from the spec: the two-argument `bmx::convert_duration_lower`
used by the `CONVERT_EXTERNAL_DUR` macro (`Utils.cpp`, not under `src/`):
sample-sequence arithmetic from phase zero. -/
def convert_duration_lower2 (d : Int) (seq : List Nat) : Int :=
  convert_position_lower d seq

/-- An edit rate: integer numerator / denominator pair (`mxfRational`). -/
structure Rational where
  num : Int
  den : Int
  deriving DecidableEq, Repr

/-- The value of a rational as an exact rational number. -/
def Rational.q (r : Rational) : ℚ := (r.num : ℚ) / (r.den : ℚ)

/-- Ceiling division for a positive divisor. -/
def ceilDivInt (a b : Int) : Int := -(-a / b)

/-- Modelled from the spec: `bmx::convert_position` with `ROUND_UP`
(`Utils.cpp`, not under `src/`): position scaled by `out/in`, rounded up. -/
def convert_position_round_up (inRate : Rational) (pos : Int) (outRate : Rational) : Int :=
  ceilDivInt (pos * outRate.num * inRate.den) (inRate.num * outRate.den)

/-- Modelled from the spec: `bmx::convert_duration` with `ROUND_AUTO`
(`Utils.cpp`, not under `src/`): negative (unknown) durations stay
unknown, otherwise the duration is scaled by `out/in` and rounded down. -/
def convert_duration_auto (inRate : Rational) (d : Int) (outRate : Rational) : Int :=
  if d < 0 then -1
  else d * outRate.num * inRate.den / (inRate.num * outRate.den)


/-!
`MXFFileReader` clip coordinator (`src/mxf_reader/MXFFileReader.cpp`).

The reader's observable read/seek state: the internal essence reader's
position (`essPos`, in essence-reader coordinates, offset by `fileOrigin`
per the `TO_ESS_READER_POS` / `FROM_ESS_READER_POS` macros) and one entry
per external reader with its enable flag, sample sequence and position in
its own edit units. `get_sequence_size` always equals the sequence sum, so
the sequence-size argument of the conversion helpers is `seq.sum`.
-/

/-- One external reader as seen from `MXFFileReader::Read` / `Seek` /
`GetPosition`: enable flag, sample sequence (`mExternalSampleSequences[i]`)
and the external reader's own position. -/
structure ExtReaderState where
  enabled : Bool
  seq : List Nat
  pos : Int
  deriving DecidableEq, Repr

/-- Read/seek state of an `MXFFileReader`. `internalEnabled` models
`InternalIsEnabled()`, `hasEssenceReader` the `mEssenceReader` pointer. -/
structure FileReaderState where
  internalEnabled : Bool
  hasEssenceReader : Bool
  essPos : Int
  fileOrigin : Int
  exts : List ExtReaderState
  readError : Bool
  deriving DecidableEq, Repr

/-- Position of the first enabled external reader converted to clip units
(the `else` loop of `MXFFileReader::GetPosition`, lines 733-741). -/
def firstEnabledExtPos : List ExtReaderState → Int
  | [] => 0
  | e :: rest => if e.enabled then convert_position_lower e.pos e.seq else firstEnabledExtPos rest

/-- `MXFFileReader::GetPosition` (lines 728-745). -/
def FileReaderState.GetPosition (s : FileReaderState) : Int :=
  if s.internalEnabled && s.hasEssenceReader then s.essPos - s.fileOrigin
  else firstEnabledExtPos s.exts

/-- `MXFFileReader::Seek` (lines 714-726): retarget the internal essence
reader to `TO_ESS_READER_POS(position)` and every enabled external reader
to `CONVERT_INTERNAL_POS(position)`. -/
def FileReaderState.Seek (s : FileReaderState) (position : Int) : FileReaderState :=
  { s with
    essPos := if s.internalEnabled && s.hasEssenceReader then position + s.fileOrigin else s.essPos,
    exts := s.exts.map fun e =>
      if e.enabled then { e with pos := convert_position_higher position e.seq } else e }

/-- Oracle for one `MXFFileReader::Read` call: the sample count returned by
`mEssenceReader->Read`, the count returned by each external reader's `Read`
(indexed in registration order), and where, if anywhere, an exception is
raised (`none` = no exception, `some 0` = during the internal read,
`some (i+1)` = while processing external reader `i`). -/
structure ReadOracle where
  intRead : Nat
  extReads : List Nat
  throwStep : Option Nat
  deriving DecidableEq, Repr

/-- Number of external samples requested from an external reader:
`(uint32_t)convert_duration_higher(num_samples, current_position, ...)`
(lines 671-674), with the `uint32_t` cast as a wrap modulo 2^32. -/
def extRequested (n : Nat) (current : Int) (seq : List Nat) : Nat :=
  ((convert_duration_higher n current seq) % 4294967296).toNat

/-- The external-reader loop of `MXFFileReader::Read` (lines 659-687).
Per enabled reader: re-sync its position to
`CONVERT_INTERNAL_POS(current_position)`, read (the oracle supplies the
returned count `ks.headD 0`, which advances the reader), convert the count
back to clip units with `convert_duration_lower` under a `uint32_t` cast,
and fold the maximum. `throwExt = some 0` models an exception surfacing
while this entry is processed. Returns the updated entries, the running
`max_num_read`, and whether an exception was raised. -/
def readExtLoop (current : Int) : List ExtReaderState → List Nat → Option Nat → Nat → Nat →
    List ExtReaderState × Nat × Bool
  | [], _, _, _, maxRead => ([], maxRead, false)
  | e :: rest, ks, throwExt, n, maxRead =>
    if throwExt = some 0 then
      ((if e.enabled then { e with pos := convert_position_higher current e.seq } else e) :: rest,
       0, true)
    else if e.enabled then
      let q := convert_position_higher current e.seq
      let k := ks.headD 0
      let inr := ((convert_duration_lower k q e.seq) % 4294967296).toNat
      let res := readExtLoop current rest ks.tail (throwExt.map (· - 1)) n (max maxRead inr)
      ({ e with pos := q + k } :: res.1, res.2)
    else
      let res := readExtLoop current rest ks.tail (throwExt.map (· - 1)) n maxRead
      (e :: res.1, res.2)

/-- Advance of the internal essence reader by a successful
`mEssenceReader->Read` returning `r` samples. -/
def applyInternal (s : FileReaderState) (r : Nat) : FileReaderState :=
  if s.internalEnabled && s.hasEssenceReader then { s with essPos := s.essPos + r } else s

/-- The read/seek-invariant shape of an external reader entry: its enable
flag and sample sequence (only its position changes during reads). -/
def extShape (e : ExtReaderState) : Bool × List Nat := (e.enabled, e.seq)

/-- `MXFFileReader::Read` (lines 631-712), for a reader with no pending
frame-info extraction. Returns the sample count, the final state, and
whether `AbortRead` was called. The entry snapshot is
`current_position = GetPosition()`; on success the maximum of the internal
and converted external read counts is returned; on an exception the catch
block sets `mReadError`, calls `AbortRead` and seeks back to the snapshot,
returning 0. -/
def FileReaderState.Read (s : FileReaderState) (n : Nat) (o : ReadOracle) :
    Nat × FileReaderState × Bool :=
  let current := s.GetPosition
  if o.throwStep = some 0 then
    let sMid := applyInternal s o.intRead
    (0, FileReaderState.Seek { sMid with readError := true } current, true)
  else
    let s1 := applyInternal s o.intRead
    let maxRead0 := if s.internalEnabled && s.hasEssenceReader then o.intRead else 0
    let res := readExtLoop current s1.exts o.extReads (o.throwStep.map (· - 1)) n maxRead0
    let s2 := { s1 with exts := res.1 }
    if res.2.2 then
      (0, FileReaderState.Seek { s2 with readError := true } current, true)
    else
      (res.2.1, { s2 with readError := false }, false)

/-!
`RawEssenceReader` (`src/essence_parser/RawEssenceReader.cpp`).

The sample buffer is tracked by its size only (`bufSize`,
`mSampleBuffer.GetSize()`); byte contents are irrelevant to the checked
properties. `EssenceSource::Read(dest, n)` is modelled as delivering
`min oracle n` bytes, which covers every contract-conforming source
(`n_read ≤ n`).
-/

/-- Observable state of a `RawEssenceReader`. -/
structure RawReaderState where
  maxReadLength : Nat
  totalReadLength : Nat
  fixedSampleSize : Nat
  bufSize : Nat
  sampleDataSize : Nat
  numSamples : Nat
  readFirstSample : Bool
  lastSampleRead : Bool
  deriving DecidableEq, Repr

/-- `RawEssenceReader::ReadBytes` (lines 251-270): truncate the request to
the remaining `mMaxReadLength` budget (when a cap is configured), return 0
if nothing remains, otherwise read from the source and account the bytes
in `mTotalReadLength` and the buffer size. -/
def RawReaderState.ReadBytes (s : RawReaderState) (size : Nat) (oracle : Nat) :
    Nat × RawReaderState :=
  let actual := if 0 < s.maxReadLength ∧ s.maxReadLength < s.totalReadLength + size
                then s.maxReadLength - s.totalReadLength else size
  if actual = 0 then (0, s)
  else
    let numRead := min oracle actual
    (numRead, { s with totalReadLength := s.totalReadLength + numRead,
                       bufSize := s.bufSize + numRead })

/-- `RawEssenceReader::AppendBytes` (lines 283-300): like `ReadBytes` but
the caller supplies the bytes, so exactly `actual_size` bytes are added. -/
def RawReaderState.AppendBytes (s : RawReaderState) (size : Nat) : Nat × RawReaderState :=
  let actual := if 0 < s.maxReadLength ∧ s.maxReadLength < s.totalReadLength + size
                then s.maxReadLength - s.totalReadLength else size
  if actual = 0 then (0, s)
  else (actual, { s with totalReadLength := s.totalReadLength + actual,
                         bufSize := s.bufSize + actual })

/-- The `mFixedSampleSize == 0` loop of `RawEssenceReader::ReadSamples`
(lines 135-139): call `ReadAndParseSample` up to `n` times, stopping at the
first `false`. `ReadAndParseSample` (lines 172-249) interacts with the
pluggable `EssenceParser` collaborator and is passed in as `rap`. -/
def rapLoop (rap : RawReaderState → Bool × RawReaderState) : Nat → RawReaderState → RawReaderState
  | 0, s => s
  | Nat.succ m, s =>
    match rap s with
    | (true, s1) => rapLoop rap m s1
    | (false, s1) => s1

/-- `RawEssenceReader::ReadSamples` (lines 121-151). The early return when
`mLastSampleRead` is set, the shift of leftover bytes to offset 0, then
either the parse loop (variable sample size) or the fixed-sample-size
branch with its `uint32_t` arithmetic. -/
def RawReaderState.ReadSamples (s : RawReaderState) (n : Nat) (oracle : Nat)
    (rap : RawReaderState → Bool × RawReaderState) : Nat × RawReaderState :=
  if s.lastSampleRead then (0, s)
  else
    let s1 := { s with bufSize := s.bufSize - s.sampleDataSize, sampleDataSize := 0,
                       numSamples := 0 }
    if s.fixedSampleSize = 0 then
      let s2 := rapLoop rap n s1
      (s2.numSamples, s2)
    else
      let target := u32 (s.fixedSampleSize * n)
      let s2 := (s1.ReadBytes (u32sub target s1.bufSize) oracle).2
      let s3 := if s2.bufSize < target then { s2 with lastSampleRead := true } else s2
      let ns := s3.bufSize / s.fixedSampleSize
      (ns, { s3 with numSamples := ns, bufSize := ns * s.fixedSampleSize,
                     sampleDataSize := ns * s.fixedSampleSize })

/-- `RawEssenceReader::Reset` (lines 159-170), after a successful
`SeekStart` on the essence source. -/
def RawReaderState.Reset (s : RawReaderState) : RawReaderState :=
  { s with totalReadLength := 0, bufSize := 0, sampleDataSize := 0, numSamples := 0,
           readFirstSample := false, lastSampleRead := false }

/-- One call against a `RawEssenceReader`'s byte-accounting interface. -/
inductive RawOp where
  | read : Nat → Nat → RawOp
  | append : Nat → RawOp
  deriving DecidableEq, Repr

/-- State after one `ReadBytes` / `AppendBytes` call. -/
def applyRawOp (s : RawReaderState) : RawOp → RawReaderState
  | RawOp.read size oracle => (s.ReadBytes size oracle).2
  | RawOp.append size => (s.AppendBytes size).2

/-- State after a sequence of `ReadBytes` / `AppendBytes` calls. -/
def execRawOps (s : RawReaderState) : List RawOp → RawReaderState
  | [] => s
  | op :: rest => execRawOps (applyRawOp s op) rest

/-!
Precharge / rollout queries (`MXFFileReader::GetMaxPrecharge`,
`GetMaxRollout`, `GetInternalPrecharge`, `GetInternalRollout`), for a
complete file (the `CHECK_SUPPORT_PC_RO_INFO` guard has passed) and a
target position that is not the `CURRENT_POSITION_VALUE` sentinel.
-/

/-- One index entry as consumed by the precharge/rollout logic:
`temporal_offset` and `key_frame_offset` (`int8_t` values in C++). -/
structure IndexEntry where
  temporalOffset : Int
  keyFrameOffset : Int
  deriving DecidableEq, Repr

/-- Collaborator context for `GetInternalPrecharge` / `GetInternalRollout`:
whether `mEssenceReader` exists, `HaveInterFrameEncodingTrack()`,
`mFileOrigin`, and the essence reader's `LegitimisePosition` and
`GetIndexEntry` (both in essence-reader coordinates). -/
structure InternalCtx where
  hasEssenceReader : Bool
  haveInterFrame : Bool
  fileOrigin : Int
  legitimise : Int → Int
  indexEntry : Int → Option IndexEntry

/-- `MXFFileReader::GetInternalIndexEntry` (lines 2177-2184). -/
def GetInternalIndexEntry (c : InternalCtx) (position : Int) : Option IndexEntry :=
  if c.hasEssenceReader then c.indexEntry (position + c.fileOrigin) else none

/-- `MXFFileReader::GetInternalPrecharge` (lines 2186-2221). -/
def GetInternalPrecharge (c : InternalCtx) (target : Int) (limitToAvailable : Bool) : Int :=
  if !c.hasEssenceReader || !c.haveInterFrame then 0
  else if c.legitimise (target + c.fileOrigin) - c.fileOrigin ≠ target then 0
  else
    let precharge : Int :=
      match GetInternalIndexEntry c target with
      | none => 0
      | some entry =>
        if entry.temporalOffset ≠ 0 then
          match GetInternalIndexEntry c (target + entry.temporalOffset) with
          | some anchor => entry.temporalOffset + anchor.keyFrameOffset
          | none => 0
        else entry.keyFrameOffset
    let precharge2 : Int :=
      if precharge < 0 ∧ limitToAvailable then
        c.legitimise (target + precharge + c.fileOrigin) - c.fileOrigin - target
      else precharge
    if precharge2 < 0 then precharge2 else 0

/-- `MXFFileReader::GetInternalRollout` (lines 2241-2269). -/
def GetInternalRollout (c : InternalCtx) (target : Int) (limitToAvailable : Bool) : Int :=
  if !c.hasEssenceReader || !c.haveInterFrame then 0
  else if c.legitimise (target + c.fileOrigin) - c.fileOrigin ≠ target then 0
  else
    let rollout : Int :=
      match GetInternalIndexEntry c target with
      | some entry => if 0 < entry.temporalOffset then entry.temporalOffset else 0
      | none => 0
    let rollout2 : Int :=
      if 0 < rollout ∧ limitToAvailable then
        c.legitimise (target + rollout + c.fileOrigin) - c.fileOrigin - target
      else rollout
    if 0 < rollout2 then rollout2 else 0

/-- One external reader as consulted by `GetMaxPrecharge` / `GetMaxRollout`:
enable flag, its edit rate, and the values its own recursive
`GetMaxPrecharge` / `GetMaxRollout` calls return at the converted target. -/
structure PRExternal where
  enabled : Bool
  editRate : Rational
  pcValue : Int
  roValue : Int
  deriving DecidableEq, Repr

/-- The external-reader fold of `GetMaxPrecharge` (lines 766-779):
a non-zero external precharge whose reader's edit rate differs from the
clip rate trips `BMX_CHECK_M` (exception, modelled as `none`); otherwise
the most negative value wins. -/
def aggExtPrecharge (clipRate : Rational) (acc : Option Int) (e : PRExternal) : Option Int :=
  match acc with
  | none => none
  | some pc =>
    if e.enabled then
      if e.pcValue ≠ 0 then
        if e.editRate ≠ clipRate then none
        else if e.pcValue < pc then some e.pcValue else some pc
      else some pc
    else some pc

/-- The external-reader fold of `GetMaxRollout` (lines 847-860). -/
def aggExtRollout (clipRate : Rational) (acc : Option Int) (e : PRExternal) : Option Int :=
  match acc with
  | none => none
  | some ro =>
    if e.enabled then
      if e.roValue ≠ 0 then
        if e.editRate ≠ clipRate then none
        else if ro < e.roValue then some e.roValue else some ro
      else some ro
    else some ro

/-- `MXFFileReader::GetMaxPrecharge` (lines 747-794) with
`limit_to_available = false`: internal precharge, folded with the enabled
external readers, clamped to at most 0 on return. `none` is the
`BMX_CHECK_M` exception escaping. -/
def GetMaxPrecharge (clipRate : Rational) (internalEnabled : Bool) (c : InternalCtx)
    (exts : List PRExternal) (target : Int) : Option Int :=
  let pc0 : Int := if internalEnabled then GetInternalPrecharge c target false else 0
  match exts.foldl (aggExtPrecharge clipRate) (some pc0) with
  | none => none
  | some pc => some (if pc < 0 then pc else 0)

/-- `MXFFileReader::GetMaxRollout` (lines 828-875) with
`limit_to_available = false`. -/
def GetMaxRollout (clipRate : Rational) (internalEnabled : Bool) (c : InternalCtx)
    (exts : List PRExternal) (target : Int) : Option Int :=
  let ro0 : Int := if internalEnabled then GetInternalRollout c target false else 0
  match exts.foldl (aggExtRollout clipRate) (some ro0) with
  | none => none
  | some ro => some (if 0 < ro then ro else 0)

/-!
Metadata processing fragments (`MXFFileReader::ProcessMetadata` and
`CreateInternalTrackReader`).
-/

/-- The clip-duration loops of `ProcessMetadata` (lines 1360-1385) share
this shape: break to `-1` (unknown) on a negative contributor, otherwise
fold the minimum of the converted durations, starting from the `-2`
sentinel. `conv` is the per-contributor conversion. -/
def durationMinLoop (conv : α → Int) (isNeg : α → Bool) : List α → Int → Int
  | [], acc => acc
  | x :: rest, acc =>
    if isNeg x then -1
    else
      let t := conv x
      durationMinLoop conv isNeg rest (if acc = -2 ∨ t < acc then t else acc)

/-- The clip-duration computation of `ProcessMetadata` (lines 1360-1385).
Internal contributors are `(material edit rate, duration)` pairs converted
with `convert_duration(..., ROUND_AUTO)`; external contributors are
`(duration, sample sequence)` pairs converted with `CONVERT_EXTERNAL_DUR`.
The external loop runs only if the internal loop did not settle on `-1`. -/
def processDuration (clipRate : Rational) (internals : List (Rational × Int))
    (externals : List (Int × List Nat)) : Int :=
  let d1 := durationMinLoop (fun x => convert_duration_auto x.1 x.2 clipRate)
              (fun x => decide (x.2 < 0)) internals (-2)
  if d1 ≠ -1 then
    durationMinLoop (fun x => convert_duration_lower2 x.1 x.2)
      (fun x => decide (x.1 < 0)) externals d1
  else d1

/-- The set-or-check of the clip edit rate in `CreateInternalTrackReader`
(lines 1460-1467), iterated over the internal file-source-package track
edit rates in creation order: the first rate is adopted; any later
mismatch raises `BMX_EXCEPTION` (modelled as `none`). -/
def setClipEditRateInternal : List Rational → Option Rational → Option Rational
  | [], acc => acc
  | r :: rest, acc =>
    match acc with
    | none => setClipEditRateInternal rest (some r)
    | some e => if r = e then setClipEditRateInternal rest (some e) else none

/-!
Binary32 (IEEE 754 single-precision) value model for the `float`
arithmetic of the lowest-external-edit-rate loop
(`MXFFileReader.cpp` lines 1330-1343). Only positive values in the
normal range occur there (quotients of positive `int32_t` edit-rate
components lie between 2^-31 and 2^31, and the initial lowest is
1000000.0), so zero, sign, subnormal, infinity and NaN handling are not
modelled. Each operation (int-to-float conversion, float division)
rounds its exact value to the nearest representable binary32 value,
ties to even, as IEEE 754 prescribes.
-/

/-- Structural-recursion floor-log2 with explicit fuel (so that the
kernel can evaluate it, unlike well-founded `Nat.log2`). -/
def log2fuel : Nat → Nat → Nat
  | 0, _ => 0
  | fuel + 1, n => if 2 ≤ n then log2fuel fuel (n / 2) + 1 else 0

/-- Floor of the base-2 logarithm of a positive natural number. -/
def natLog2 (n : Nat) : Nat := log2fuel n n

/-- Whether `b * 2 ^ e ≤ a`, i.e. `2 ^ e ≤ a / b`, for an integer
exponent `e`. -/
def pow2le (b a : Nat) (e : Int) : Bool :=
  if 0 ≤ e then decide (b * 2 ^ e.toNat ≤ a) else decide (b ≤ a * 2 ^ (-e).toNat)

/-- Floor of the base-2 logarithm of the positive rational `a / b`. -/
def floorLog2Rat (a b : Nat) : Int :=
  let e0 : Int := (natLog2 a : Int) - (natLog2 b : Int)
  if pow2le b a e0 then e0 else e0 - 1

/-- A positive binary32 value `mantissa * 2 ^ (exponent - 23)`;
values produced by `roundF32` are normalized
(`2^23 ≤ mantissa < 2^24`), so the value order is the lexicographic
order on `(exponent, mantissa)`. -/
structure F32 where
  mantissa : Nat
  exponent : Int
  deriving DecidableEq, Repr

/-- The binary32 comparison `x < y` on normalized positive values. -/
def f32lt (x y : F32) : Bool :=
  decide (x.exponent < y.exponent ∨ (x.exponent = y.exponent ∧ x.mantissa < y.mantissa))

/-- Round the positive rational `a / b` to the nearest binary32 value,
ties to even: scale into `[2^23, 2^24)`, round the scaled mantissa, and
re-normalize when rounding carries up to `2^24`. -/
def roundF32 (a b : Nat) : F32 :=
  let e := floorLog2Rat a b
  let N := if 0 ≤ 23 - e then a * 2 ^ (23 - e).toNat else a
  let D := if 0 ≤ 23 - e then b else b * 2 ^ (e - 23).toNat
  let m0 := N / D
  let r := N % D
  let m := if 2 * r < D then m0
           else if D < 2 * r then m0 + 1
           else if m0 % 2 = 0 then m0 else m0 + 1
  if m = 2 ^ 24 then ⟨2 ^ 23, e + 1⟩ else ⟨m, e⟩

/-- Conversion of a (positive) integer to binary32, as performed by the
implicit `int32_t`-to-`float` conversions in
`numerator / (float)denominator`. -/
def f32OfNat (n : Nat) : F32 := roundF32 n 1

/-- Binary32 division: the exact quotient
`(x.mantissa / y.mantissa) * 2 ^ (x.exponent - y.exponent)` rounded to
nearest, ties to even. -/
def f32div (x y : F32) : F32 :=
  if 0 ≤ x.exponent - y.exponent then
    roundF32 (x.mantissa * 2 ^ (x.exponent - y.exponent).toNat) y.mantissa
  else
    roundF32 x.mantissa (y.mantissa * 2 ^ (y.exponent - x.exponent).toNat)

/-- The single-precision quotient
`track_edit_rate = numerator / (float)denominator` computed at lines
1335-1336 for a positive edit rate. -/
def trackEditRateF32 (r : Rational) : F32 :=
  f32div (f32OfNat r.num.toNat) (f32OfNat r.den.toNat)

/-- The lowest-external-edit-rate loop of `ProcessMetadata` (lines
1330-1341): each track's single-precision quotient is compared with the
running lowest (a `float` initialised to `1000000.0`) using the
binary32 `<`; a strictly smaller quotient makes the track's rate the
current clip edit rate. -/
def lowestExternalRateLoop : List Rational → Rational → F32 → Rational
  | [], er, _ => er
  | r :: rest, er, lowest =>
    if f32lt (trackEditRateF32 r) lowest then
      lowestExternalRateLoop rest r (trackEditRateF32 r)
    else lowestExternalRateLoop rest er lowest

/-- Clip edit rate when there are no internal essence tracks (lines
1328-1343): run the lowest-rate loop from the null rate with the lowest
initialised to the binary32 value 1000000.0, then
`BMX_CHECK(mEditRate.numerator != 0)` (failure modelled as `none`). -/
def setClipEditRateExternal (rates : List Rational) : Option Rational :=
  let er := lowestExternalRateLoop rates ⟨0, 1⟩ (f32OfNat 1000000)
  if er.num = 0 then none else some er

/-- The three-field sort key of a track reader as used by
`compare_track_reader`. -/
structure TrackKey where
  dataDef : Nat
  materialTrackNumber : Nat
  materialTrackId : Nat
  deriving DecidableEq, Repr

/-- `compare_track_reader` (lines 109-132), the comparator passed to
`std::stable_sort` over the track readers (line 1239). -/
def compare_track_reader (left right : TrackKey) : Bool :=
  if left.dataDef ≠ right.dataDef then decide (left.dataDef < right.dataDef)
  else if left.materialTrackNumber ≠ 0 then
    decide (right.materialTrackNumber = 0 ∨
            left.materialTrackNumber < right.materialTrackNumber)
  else if right.materialTrackNumber ≠ 0 then false
  else if left.materialTrackId ≠ 0 then
    decide (right.materialTrackId = 0 ∨ left.materialTrackId < right.materialTrackId)
  else decide (right.materialTrackId = 0)

/-- The per-track loop of `MXFFileReader::GetFixedLeadFillerOffset`
(lines 912-923) after the first track fixed the candidate offset:
any differing converted offset returns 0 immediately. -/
def fixedLeadLoop (clipRate : Rational) (fixed : Int) : List (Rational × Int) → Int
  | [] => fixed
  | t :: rest =>
    if convert_position_round_up t.1 t.2 clipRate ≠ fixed then 0
    else fixedLeadLoop clipRate fixed rest

/-- `MXFFileReader::GetFixedLeadFillerOffset` (lines 909-926): each track
contributes `convert_position(edit_rate, lead_filler_offset, mEditRate,
ROUND_UP)`; the first track's value is the candidate, any disagreement
yields 0, no tracks yield 0. -/
def GetFixedLeadFillerOffset (clipRate : Rational) (tracks : List (Rational × Int)) : Int :=
  match tracks with
  | [] => 0
  | t :: rest => fixedLeadLoop clipRate (convert_position_round_up t.1 t.2 clipRate) rest

section ConversionLemmas

theorem sumTake_le_sum (seq : List Nat) (m : Nat) : sumTake seq m ≤ seq.sum := by
  conv_rhs => rw [← List.take_append_drop m seq]
  rw [List.sum_append]
  exact Nat.le_add_right _ _

theorem sumTake_mono (seq : List Nat) {m m' : Nat} (h : m ≤ m') :
    sumTake seq m ≤ sumTake seq m' := by
  have h1 : sumTake seq m = sumTake (seq.take m') m := by
    unfold sumTake
    rw [List.take_take, Nat.min_eq_left h]
  rw [h1]
  simpa [sumTake] using sumTake_le_sum (seq.take m') m

theorem sumTake_lt_sum : ∀ (seq : List Nat) (m : Nat),
    (∀ x ∈ seq, 0 < x) → m < seq.length → sumTake seq m < seq.sum := by
  intro seq
  induction seq with
  | nil => intro m _ h; simp at h
  | cons e rest ih =>
    intro m hpos hm
    cases m with
    | zero =>
      have he : 0 < e := hpos e (by simp)
      simp [sumTake]
      omega
    | succ m =>
      have hm' : m < rest.length := by simpa using hm
      have := ih m (fun x hx => hpos x (by simp [hx])) hm'
      simp only [sumTake, List.take_succ_cons, List.sum_cons] at *
      omega

theorem consume_le_length : ∀ (seq : List Nat) (r : Nat), consume seq r ≤ seq.length := by
  intro seq
  induction seq with
  | nil => intro r; simp [consume]
  | cons e rest ih =>
    intro r
    simp only [consume]
    split
    · have := ih (r - e); simpa using Nat.succ_le_succ this
    · simp

theorem consume_mono : ∀ (seq : List Nat) {r r' : Nat}, r ≤ r' →
    consume seq r ≤ consume seq r' := by
  intro seq
  induction seq with
  | nil => intro r r' _; simp [consume]
  | cons e rest ih =>
    intro r r' h
    simp only [consume]
    by_cases h1 : e ≤ r
    · have h2 : e ≤ r' := le_trans h1 h
      rw [if_pos h1, if_pos h2]
      exact Nat.succ_le_succ (ih (Nat.sub_le_sub_right h e))
    · rw [if_neg h1]
      split <;> omega

theorem consume_sumTake : ∀ (seq : List Nat) (m : Nat),
    (∀ x ∈ seq, 0 < x) → m < seq.length → consume seq (sumTake seq m) = m := by
  intro seq
  induction seq with
  | nil => intro m _ h; simp at h
  | cons e rest ih =>
    intro m hpos hm
    cases m with
    | zero =>
      have he : 0 < e := hpos e (by simp)
      simp [sumTake, consume]
      omega
    | succ m =>
      have hm' : m < rest.length := by simpa using hm
      have hrec := ih m (fun x hx => hpos x (by simp [hx])) hm'
      simp only [sumTake, List.take_succ_cons, List.sum_cons] at *
      simp only [consume, if_pos (Nat.le_add_right e _), Nat.add_sub_cancel_left]
      omega

theorem seq_sum_pos {seq : List Nat} (h : seqOK seq) : 0 < seq.sum := by
  obtain ⟨hne, hpos⟩ := h
  cases seq with
  | nil => exact absurd rfl hne
  | cons e rest =>
    have := hpos e (by simp)
    simp only [List.sum_cons]
    omega

theorem seq_length_pos {seq : List Nat} (h : seqOK seq) : 0 < seq.length := by
  obtain ⟨hne, _⟩ := h
  cases seq with
  | nil => exact absurd rfl hne
  | cons _ _ => simp

theorem comp_ediv {x S : Int} (k : Int) (hx0 : 0 ≤ x) (hxS : x < S) :
    (x + k * S) / S = k := by
  rw [Int.add_mul_ediv_right _ _ (by omega : S ≠ 0),
      Int.ediv_eq_zero_of_lt hx0 hxS, zero_add]

theorem comp_emod {x S : Int} (k : Int) (hx0 : 0 ≤ x) (hxS : x < S) :
    (x + k * S) % S = x := by
  rw [Int.add_mul_emod_self, Int.emod_eq_of_lt hx0 hxS]

/-- Round trip: converting a clip position to the higher (external) rate
and back is the identity. -/
theorem convert_position_lower_higher (p : Int) (seq : List Nat) (h : seqOK seq) :
    convert_position_lower (convert_position_higher p seq) seq = p := by
  have hlen : (0 : Int) < (seq.length : Int) := by exact_mod_cast seq_length_pos h
  have hS : (0 : Int) < (seq.sum : Int) := by exact_mod_cast seq_sum_pos h
  have hr0 : 0 ≤ p % (seq.length : Int) := Int.emod_nonneg p (by omega)
  have hrlt : p % (seq.length : Int) < (seq.length : Int) := Int.emod_lt_of_pos p hlen
  have hilen : (p % (seq.length : Int)).toNat < seq.length := by omega
  have hps_lt : ((sumTake seq (p % (seq.length : Int)).toNat : Nat) : Int) < (seq.sum : Int) := by
    exact_mod_cast sumTake_lt_sum seq _ h.2 hilen
  have hps0 : (0 : Int) ≤ ((sumTake seq (p % (seq.length : Int)).toNat : Nat) : Int) := by
    positivity
  unfold convert_position_higher convert_position_lower
  rw [add_comm (p / (seq.length : Int) * (seq.sum : Int)) _]
  rw [comp_ediv _ hps0 hps_lt, comp_emod _ hps0 hps_lt]
  rw [Int.toNat_natCast, consume_sumTake seq _ h.2 hilen]
  have hde := Int.ediv_add_emod p (seq.length : Int)
  have htn : ((p % (seq.length : Int)).toNat : Int) = p % (seq.length : Int) :=
    Int.toNat_of_nonneg hr0
  have hcm : p / (seq.length : Int) * (seq.length : Int)
      = (seq.length : Int) * (p / (seq.length : Int)) := mul_comm _ _
  linarith [hde, htn, hcm]

/-- Monotonicity of the lower-to-higher position conversion. -/
theorem convert_position_higher_mono {p p' : Int} (seq : List Nat) (h : seqOK seq)
    (hpp : p ≤ p') : convert_position_higher p seq ≤ convert_position_higher p' seq := by
  have hlen : (0 : Int) < (seq.length : Int) := by exact_mod_cast seq_length_pos h
  have hS : (0 : Int) ≤ (seq.sum : Int) := by positivity
  have ha : p / (seq.length : Int) ≤ p' / (seq.length : Int) := Int.ediv_le_ediv hlen hpp
  unfold convert_position_higher
  rcases lt_or_eq_of_le ha with hlt | heq
  · have h1 : (sumTake seq (p % (seq.length : Int)).toNat : Int) ≤ (seq.sum : Int) := by
      exact_mod_cast sumTake_le_sum seq _
    have h2 : (p / (seq.length : Int) + 1) * (seq.sum : Int)
        ≤ p' / (seq.length : Int) * (seq.sum : Int) :=
      mul_le_mul_of_nonneg_right (by omega) hS
    have h3 : (0 : Int) ≤ (sumTake seq (p' % (seq.length : Int)).toNat : Int) := by positivity
    nlinarith [h1, h2, h3]
  · have hde := Int.ediv_add_emod p (seq.length : Int)
    have hde' := Int.ediv_add_emod p' (seq.length : Int)
    have hprod : (seq.length : Int) * (p / (seq.length : Int))
        = (seq.length : Int) * (p' / (seq.length : Int)) := by rw [heq]
    have hmod : p % (seq.length : Int) ≤ p' % (seq.length : Int) := by
      linarith [hde, hde', hprod]
    have hr0 : 0 ≤ p % (seq.length : Int) := Int.emod_nonneg p (by omega)
    have hmn : (p % (seq.length : Int)).toNat ≤ (p' % (seq.length : Int)).toNat := by omega
    have hst := sumTake_mono seq hmn
    have hcast : (sumTake seq (p % (seq.length : Int)).toNat : Int)
        ≤ (sumTake seq (p' % (seq.length : Int)).toNat : Int) := by exact_mod_cast hst
    rw [heq]
    linarith [hcast]

/-- Monotonicity of the higher-to-lower position conversion. -/
theorem convert_position_lower_mono {q q' : Int} (seq : List Nat) (h : seqOK seq)
    (hqq : q ≤ q') : convert_position_lower q seq ≤ convert_position_lower q' seq := by
  have hS : (0 : Int) < (seq.sum : Int) := by exact_mod_cast seq_sum_pos h
  have hlen : (0 : Int) ≤ (seq.length : Int) := by positivity
  have hb : q / (seq.sum : Int) ≤ q' / (seq.sum : Int) := Int.ediv_le_ediv hS hqq
  unfold convert_position_lower
  rcases lt_or_eq_of_le hb with hlt | heq
  · have h1 : (consume seq (q % (seq.sum : Int)).toNat : Int) ≤ (seq.length : Int) := by
      exact_mod_cast consume_le_length seq _
    have h2 : (q / (seq.sum : Int) + 1) * (seq.length : Int)
        ≤ q' / (seq.sum : Int) * (seq.length : Int) :=
      mul_le_mul_of_nonneg_right (by omega) hlen
    have h3 : (0 : Int) ≤ (consume seq (q' % (seq.sum : Int)).toNat : Int) := by positivity
    nlinarith [h1, h2, h3]
  · have hde := Int.ediv_add_emod q (seq.sum : Int)
    have hde' := Int.ediv_add_emod q' (seq.sum : Int)
    have hprod : (seq.sum : Int) * (q / (seq.sum : Int))
        = (seq.sum : Int) * (q' / (seq.sum : Int)) := by rw [heq]
    have hmod : q % (seq.sum : Int) ≤ q' % (seq.sum : Int) := by
      linarith [hde, hde', hprod]
    have hr0 : 0 ≤ q % (seq.sum : Int) := Int.emod_nonneg q (by omega)
    have hmn : (q % (seq.sum : Int)).toNat ≤ (q' % (seq.sum : Int)).toNat := by omega
    have hcn := consume_mono seq hmn
    have hcast : (consume seq (q % (seq.sum : Int)).toNat : Int)
        ≤ (consume seq (q' % (seq.sum : Int)).toNat : Int) := by exact_mod_cast hcn
    rw [heq]
    linarith [hcast]

end ConversionLemmas

/-!
Helper lemmas about the embedded operations.
-/

theorem readBytes_max_eq (s : RawReaderState) (size oracle : Nat) :
    (s.ReadBytes size oracle).2.maxReadLength = s.maxReadLength := by
  unfold RawReaderState.ReadBytes
  dsimp only
  split <;> split <;> rfl

theorem appendBytes_max_eq (s : RawReaderState) (size : Nat) :
    (s.AppendBytes size).2.maxReadLength = s.maxReadLength := by
  unfold RawReaderState.AppendBytes
  dsimp only
  split <;> split <;> rfl

theorem readBytes_total_le (s : RawReaderState) (size oracle : Nat)
    (hmax : 0 < s.maxReadLength) (h0 : s.totalReadLength ≤ s.maxReadLength) :
    (s.ReadBytes size oracle).2.totalReadLength ≤ s.maxReadLength := by
  unfold RawReaderState.ReadBytes
  dsimp only
  split
  · split
    · exact h0
    · dsimp only
      omega
  · rename_i hc
    split
    · exact h0
    · dsimp only
      push_neg at hc
      have := hc hmax
      omega

theorem appendBytes_total_le (s : RawReaderState) (size : Nat)
    (hmax : 0 < s.maxReadLength) (h0 : s.totalReadLength ≤ s.maxReadLength) :
    (s.AppendBytes size).2.totalReadLength ≤ s.maxReadLength := by
  unfold RawReaderState.AppendBytes
  dsimp only
  split
  · split
    · exact h0
    · dsimp only
      omega
  · rename_i hc
    split
    · exact h0
    · dsimp only
      push_neg at hc
      have := hc hmax
      omega

theorem applyRawOp_max_eq (s : RawReaderState) (op : RawOp) :
    (applyRawOp s op).maxReadLength = s.maxReadLength := by
  cases op with
  | read size oracle => exact readBytes_max_eq s size oracle
  | append size => exact appendBytes_max_eq s size

theorem applyRawOp_total_le (s : RawReaderState) (op : RawOp)
    (hmax : 0 < s.maxReadLength) (h0 : s.totalReadLength ≤ s.maxReadLength) :
    (applyRawOp s op).totalReadLength ≤ s.maxReadLength := by
  cases op with
  | read size oracle => exact readBytes_total_le s size oracle hmax h0
  | append size => exact appendBytes_total_le s size hmax h0

theorem execRawOps_total_le : ∀ (ops : List RawOp) (s : RawReaderState),
    0 < s.maxReadLength → s.totalReadLength ≤ s.maxReadLength →
    (execRawOps s ops).totalReadLength ≤ s.maxReadLength := by
  intro ops
  induction ops with
  | nil => intro s _ h0; exact h0
  | cons op rest ih =>
    intro s hmax h0
    have hm := applyRawOp_max_eq s op
    have h1 : 0 < (applyRawOp s op).maxReadLength := by omega
    have h2 : (applyRawOp s op).totalReadLength ≤ (applyRawOp s op).maxReadLength := by
      have := applyRawOp_total_le s op hmax h0
      omega
    have h3 := ih (applyRawOp s op) h1 h2
    rw [hm] at h3
    exact h3

theorem fixedLeadLoop_all_eq (clipRate : Rational) (f : Int) :
    ∀ rest : List (Rational × Int),
    (∀ t ∈ rest, convert_position_round_up t.1 t.2 clipRate = f) →
    fixedLeadLoop clipRate f rest = f := by
  intro rest
  induction rest with
  | nil => intro _; rfl
  | cons t tail ih =>
    intro h
    have ht := h t (by simp)
    simp only [fixedLeadLoop]
    rw [if_neg (by simp [ht] : ¬ convert_position_round_up t.1 t.2 clipRate ≠ f)]
    exact ih fun x hx => h x (List.mem_cons_of_mem t hx)

theorem fixedLeadLoop_exists_ne (clipRate : Rational) (f : Int) :
    ∀ rest : List (Rational × Int),
    (∃ t ∈ rest, convert_position_round_up t.1 t.2 clipRate ≠ f) →
    fixedLeadLoop clipRate f rest = 0 := by
  intro rest
  induction rest with
  | nil => intro ⟨t, ht, _⟩; simp at ht
  | cons t tail ih =>
    intro ⟨x, hx, hne⟩
    simp only [fixedLeadLoop]
    by_cases hh : convert_position_round_up t.1 t.2 clipRate ≠ f
    · simp [hh]
    · simp only [hh, if_false]
      push_neg at hh
      apply ih
      rcases List.mem_cons.mp hx with h1 | h1
      · exact absurd (h1 ▸ hh) hne
      · exact ⟨x, h1, hne⟩

theorem applyInternal_internalEnabled (s : FileReaderState) (r : Nat) :
    (applyInternal s r).internalEnabled = s.internalEnabled := by
  unfold applyInternal
  split <;> rfl

theorem applyInternal_hasEssenceReader (s : FileReaderState) (r : Nat) :
    (applyInternal s r).hasEssenceReader = s.hasEssenceReader := by
  unfold applyInternal
  split <;> rfl

theorem applyInternal_fileOrigin (s : FileReaderState) (r : Nat) :
    (applyInternal s r).fileOrigin = s.fileOrigin := by
  unfold applyInternal
  split <;> rfl

theorem applyInternal_exts (s : FileReaderState) (r : Nat) :
    (applyInternal s r).exts = s.exts := by
  unfold applyInternal
  split <;> rfl

theorem readExtLoop_shape (current : Int) : ∀ (l : List ExtReaderState) (ks : List Nat)
    (t : Option Nat) (n maxRead : Nat),
    (readExtLoop current l ks t n maxRead).1.map extShape = l.map extShape := by
  intro l
  induction l with
  | nil => intro ks t n m; rfl
  | cons e rest ih =>
    intro ks t n m
    simp only [readExtLoop]
    split
    · split <;> simp [extShape]
    · split
      · dsimp only
        simp [extShape, ih]
      · dsimp only
        simp [extShape, ih]

theorem readExtLoop_throw (current : Int) : ∀ (l : List ExtReaderState) (ks : List Nat)
    (j n maxRead : Nat), j < l.length →
    (readExtLoop current l ks (some j) n maxRead).2.2 = true := by
  intro l
  induction l with
  | nil => intro ks j n m h; simp at h
  | cons e rest ih =>
    intro ks j n m h
    simp only [readExtLoop]
    by_cases hj : j = 0
    · rw [if_pos (by rw [hj])]
    · rw [if_neg (by simp [hj])]
      have hmap : (some j : Option Nat).map (· - 1) = some (j - 1) := rfl
      have hlt : j - 1 < rest.length := by
        simp only [List.length_cons] at h
        omega
      split
      · dsimp only
        rw [hmap]
        exact ih ks.tail (j - 1) n _ hlt
      · dsimp only
        rw [hmap]
        exact ih ks.tail (j - 1) n m hlt

theorem readExtLoop_nothrow (current : Int) : ∀ (l : List ExtReaderState) (ks : List Nat)
    (n maxRead : Nat),
    (readExtLoop current l ks none n maxRead).2.2 = false := by
  intro l
  induction l with
  | nil => intro ks n m; rfl
  | cons e rest ih =>
    intro ks n m
    simp only [readExtLoop]
    rw [if_neg (by simp)]
    split
    · dsimp only
      exact ih ks.tail n _
    · dsimp only
      exact ih ks.tail n m

/-- The converted-back external read count is at most the clip-unit request
when the external read count is at most the converted request. -/
theorem converted_read_le (n : Nat) (current : Int) (seq : List Nat) (h : seqOK seq)
    (k : Nat) (hk : k ≤ extRequested n current seq) :
    ((convert_duration_lower k (convert_position_higher current seq) seq) % 4294967296).toNat
      ≤ n := by
  have hq := convert_position_lower_higher current seq h
  have hq' := convert_position_lower_higher (current + (n : Int)) seq h
  have hAB : convert_position_higher current seq
      ≤ convert_position_higher (current + (n : Int)) seq :=
    convert_position_higher_mono seq h (by omega)
  have hkI : (k : Int) ≤ convert_position_higher (current + (n : Int)) seq
      - convert_position_higher current seq := by
    unfold extRequested convert_duration_higher at hk
    omega
  have hlow := convert_position_lower_mono seq h
    (show convert_position_higher current seq + (k : Int)
        ≤ convert_position_higher (current + (n : Int)) seq by omega)
  have hlow0 := convert_position_lower_mono seq h
    (show convert_position_higher current seq
        ≤ convert_position_higher current seq + (k : Int) by omega)
  rw [hq'] at hlow
  unfold convert_duration_lower
  rw [hq] at hlow0 ⊢
  omega

theorem readExtLoop_le (current : Int) (n : Nat) : ∀ (l : List ExtReaderState)
    (ks : List Nat) (maxRead : Nat), maxRead ≤ n →
    (∀ e ∈ l, seqOK e.seq) →
    (∀ p ∈ l.zip ks, p.1.enabled = true → p.2 ≤ extRequested n current p.1.seq) →
    (readExtLoop current l ks none n maxRead).2.1 ≤ n := by
  intro l
  induction l with
  | nil => intro ks m hm _ _; exact hm
  | cons e rest ih =>
    intro ks m hm hseq hk
    have hseq' : ∀ x ∈ rest, seqOK x.seq := fun x hx => hseq x (List.mem_cons_of_mem e hx)
    have hk' : ∀ p ∈ rest.zip ks.tail, p.1.enabled = true →
        p.2 ≤ extRequested n current p.1.seq := by
      intro p hp hpe
      cases ks with
      | nil => simp at hp
      | cons kv kt =>
        refine hk p ?_ hpe
        simp only [List.tail_cons] at hp
        simp only [List.zip_cons_cons]
        exact List.mem_cons_of_mem (e, kv) hp
    simp only [readExtLoop]
    rw [if_neg (by simp)]
    split
    · rename_i he
      have hbound : ((convert_duration_lower (ks.headD 0)
          (convert_position_higher current e.seq) e.seq) % 4294967296).toNat ≤ n := by
        cases ks with
        | nil =>
          simp only [List.headD]
          unfold convert_duration_lower
          simp
        | cons kv kt =>
          simp only [List.headD]
          exact converted_read_le n current e.seq (hseq e (List.mem_cons_self e rest)) kv
            (hk (e, kv) (by simp [List.zip_cons_cons]) he)
      dsimp only
      exact ih ks.tail _ (max_le hm hbound) hseq' hk'
    · dsimp only
      exact ih ks.tail m hm hseq' hk'

/-- Re-seeking a same-shaped external-reader list to the original list's
first-enabled position restores that position. -/
theorem firstEnabledExtPos_seek : ∀ (l' l : List ExtReaderState),
    l'.map extShape = l.map extShape → (∀ e ∈ l, seqOK e.seq) →
    firstEnabledExtPos (l'.map fun e =>
      if e.enabled then { e with pos := convert_position_higher (firstEnabledExtPos l) e.seq }
      else e) = firstEnabledExtPos l := by
  intro l'
  induction l' with
  | nil =>
    intro l hshape _
    have hl : l = [] := by
      cases l with
      | nil => rfl
      | cons x xs => simp at hshape
    rw [hl]
    rfl
  | cons e' rest' ih =>
    intro l hshape hseq
    cases l with
    | nil => simp at hshape
    | cons e rest =>
      simp only [List.map_cons, List.cons.injEq] at hshape
      obtain ⟨hsh, hrest⟩ := hshape
      have hen : e'.enabled = e.enabled := congrArg Prod.fst hsh
      have hsq : e'.seq = e.seq := congrArg Prod.snd hsh
      by_cases he : e.enabled = true
      · have he' : e'.enabled = true := by rw [hen]; exact he
        have hfe : firstEnabledExtPos (e :: rest) = convert_position_lower e.pos e.seq := by
          simp [firstEnabledExtPos, he]
        rw [hfe]
        simp only [List.map_cons, firstEnabledExtPos, he', if_true, if_pos he']
        simp only [hsq]
        exact convert_position_lower_higher _ e.seq (hseq e (List.mem_cons_self e rest))
      · have he' : ¬ e'.enabled = true := by rw [hen]; exact he
        have hfe : firstEnabledExtPos (e :: rest) = firstEnabledExtPos rest := by
          simp [firstEnabledExtPos, he]
        rw [hfe]
        simp only [List.map_cons, firstEnabledExtPos, he', Bool.false_eq_true, if_false,
          eq_self_iff_true, not_true_eq_false]
        exact ih rest hrest fun x hx => hseq x (List.mem_cons_of_mem e hx)

theorem getPosition_seek (s s' : FileReaderState)
    (h1 : s'.internalEnabled = s.internalEnabled)
    (h2 : s'.hasEssenceReader = s.hasEssenceReader)
    (h4 : s'.exts.map extShape = s.exts.map extShape)
    (hseq : ∀ e ∈ s.exts, seqOK e.seq) :
    (s'.Seek s.GetPosition).GetPosition = s.GetPosition := by
  by_cases hint : (s.internalEnabled && s.hasEssenceReader) = true
  · unfold FileReaderState.Seek FileReaderState.GetPosition
    simp only [h1, h2, hint, if_true]
    ring
  · rw [Bool.not_eq_true] at hint
    unfold FileReaderState.Seek FileReaderState.GetPosition
    simp only [h1, h2, hint, Bool.false_eq_true, if_false]
    exact firstEnabledExtPos_seek s'.exts s.exts h4 hseq

theorem f32lt_irrefl (a : F32) : f32lt a a = false := by
  simp only [f32lt, decide_eq_false_iff_not]
  omega

theorem f32lt_trans {a b c : F32} (h1 : f32lt a b = true) (h2 : f32lt b c = true) :
    f32lt a c = true := by
  simp only [f32lt, decide_eq_true_eq] at *
  omega

theorem f32lt_asymm {a b : F32} (h : f32lt a b = true) : f32lt b a = false := by
  simp only [f32lt, decide_eq_true_eq] at h
  simp only [f32lt, decide_eq_false_iff_not]
  omega

theorem lowestExternalRateLoop_spec : ∀ (rates : List Rational) (er : Rational) (lowest : F32),
    (lowestExternalRateLoop rates er lowest = er ∧
     ∀ r ∈ rates, f32lt (trackEditRateF32 r) lowest = false) ∨
    (lowestExternalRateLoop rates er lowest ∈ rates ∧
     f32lt (trackEditRateF32 (lowestExternalRateLoop rates er lowest)) lowest = true ∧
     ∀ r ∈ rates, f32lt (trackEditRateF32 r)
       (trackEditRateF32 (lowestExternalRateLoop rates er lowest)) = false) := by
  intro rates
  induction rates with
  | nil => intro er lowest; exact Or.inl ⟨rfl, by simp⟩
  | cons r rest ih =>
    intro er lowest
    simp only [lowestExternalRateLoop]
    by_cases h : f32lt (trackEditRateF32 r) lowest = true
    · rw [if_pos h]
      rcases ih r (trackEditRateF32 r) with ⟨h1, h2⟩ | ⟨h1, h2, h3⟩
      · refine Or.inr ⟨?_, ?_, ?_⟩
        · rw [h1]; exact List.mem_cons_self r rest
        · rw [h1]; exact h
        · intro x hx
          rw [h1]
          rcases List.mem_cons.mp hx with e | e
          · rw [e]
            exact f32lt_irrefl _
          · exact h2 x e
      · refine Or.inr ⟨List.mem_cons_of_mem r h1, f32lt_trans h2 h, ?_⟩
        intro x hx
        rcases List.mem_cons.mp hx with e | e
        · rw [e]
          exact f32lt_asymm h2
        · exact h3 x e
    · have hb : f32lt (trackEditRateF32 r) lowest = false := by
        cases hc : f32lt (trackEditRateF32 r) lowest
        · rfl
        · exact absurd hc h
      rw [if_neg h]
      rcases ih er lowest with ⟨h1, h2⟩ | ⟨h1, h2, h3⟩
      · refine Or.inl ⟨h1, ?_⟩
        intro x hx
        rcases List.mem_cons.mp hx with e | e
        · rw [e]; exact hb
        · exact h2 x e
      · refine Or.inr ⟨List.mem_cons_of_mem r h1, h2, ?_⟩
        intro x hx
        rcases List.mem_cons.mp hx with e | e
        · rw [e]
          cases hc : f32lt (trackEditRateF32 r)
              (trackEditRateF32 (lowestExternalRateLoop rest er lowest))
          · rfl
          · have := f32lt_trans hc h2
            simp [this] at hb
        · exact h3 x e

theorem setClipEditRateInternal_all_eq (r : Rational) : ∀ rest : List Rational,
    (∀ x ∈ rest, x = r) → setClipEditRateInternal rest (some r) = some r := by
  intro rest
  induction rest with
  | nil => intro _; rfl
  | cons x tail ih =>
    intro h
    have hx := h x (List.mem_cons_self x tail)
    simp only [setClipEditRateInternal, hx, if_pos rfl]
    exact ih fun y hy => h y (List.mem_cons_of_mem x hy)

theorem setClipEditRateInternal_exists_ne (r : Rational) : ∀ rest : List Rational,
    (∃ x ∈ rest, x ≠ r) → setClipEditRateInternal rest (some r) = none := by
  intro rest
  induction rest with
  | nil => intro ⟨x, hx, _⟩; simp at hx
  | cons x tail ih =>
    intro ⟨y, hy, hne⟩
    simp only [setClipEditRateInternal]
    by_cases hx : x = r
    · rw [if_pos hx]
      apply ih
      rcases List.mem_cons.mp hy with e | e
      · exact absurd (e ▸ hx) hne
      · exact ⟨y, e, hne⟩
    · rw [if_neg hx]

theorem durationMinLoop_min {α : Type} (conv : α → Int) (isNeg : α → Bool) :
    ∀ (l : List α) (acc : Int), 0 ≤ acc →
    (∀ x ∈ l, isNeg x = false) → (∀ x ∈ l, 0 ≤ conv x) →
    (durationMinLoop conv isNeg l acc ∈ acc :: l.map conv ∧
     ∀ v ∈ acc :: l.map conv, durationMinLoop conv isNeg l acc ≤ v) := by
  intro l
  induction l with
  | nil =>
    intro acc hacc _ _
    exact ⟨by simp [durationMinLoop], by simp [durationMinLoop]⟩
  | cons x rest ih =>
    intro acc hacc hneg hconv
    have hx := hneg x (List.mem_cons_self x rest)
    have hcx := hconv x (List.mem_cons_self x rest)
    simp only [durationMinLoop, hx, Bool.false_eq_true, if_false, List.map_cons]
    by_cases hlt : conv x < acc
    · rw [if_pos (Or.inr hlt)]
      obtain ⟨hm, hmin⟩ := ih (conv x) hcx
        (fun y hy => hneg y (List.mem_cons_of_mem x hy))
        (fun y hy => hconv y (List.mem_cons_of_mem x hy))
      refine ⟨?_, ?_⟩
      · rcases List.mem_cons.mp hm with e | e
        · rw [e]
          exact List.mem_cons_of_mem acc (List.mem_cons_self _ _)
        · exact List.mem_cons_of_mem acc (List.mem_cons_of_mem _ e)
      · intro v hv
        have hle := hmin (conv x) (List.mem_cons_self _ _)
        rcases List.mem_cons.mp hv with e | e
        · omega
        · rcases List.mem_cons.mp e with e2 | e2
          · omega
          · exact hmin v (List.mem_cons_of_mem _ e2)
    · rw [if_neg (by omega)]
      obtain ⟨hm, hmin⟩ := ih acc hacc
        (fun y hy => hneg y (List.mem_cons_of_mem x hy))
        (fun y hy => hconv y (List.mem_cons_of_mem x hy))
      refine ⟨?_, ?_⟩
      · rcases List.mem_cons.mp hm with e | e
        · rw [e]
          exact List.mem_cons_self _ _
        · exact List.mem_cons_of_mem acc (List.mem_cons_of_mem _ e)
      · intro v hv
        have hle := hmin acc (List.mem_cons_self _ _)
        rcases List.mem_cons.mp hv with e | e
        · omega
        · rcases List.mem_cons.mp e with e2 | e2
          · omega
          · exact hmin v (List.mem_cons_of_mem _ e2)

theorem durationMinLoop_neg {α : Type} (conv : α → Int) (isNeg : α → Bool) :
    ∀ (l : List α) (acc : Int), (∃ x ∈ l, isNeg x = true) →
    durationMinLoop conv isNeg l acc = -1 := by
  intro l
  induction l with
  | nil => intro acc ⟨x, hx, _⟩; simp at hx
  | cons x rest ih =>
    intro acc ⟨y, hy, hneg⟩
    simp only [durationMinLoop]
    by_cases hx : isNeg x = true
    · rw [if_pos hx]
    · rw [if_neg hx]
      apply ih
      rcases List.mem_cons.mp hy with e | e
      · exact absurd (e ▸ hneg) hx
      · exact ⟨y, e, hneg⟩

theorem convert_duration_auto_nonneg (inRate : Rational) (d : Int) (outRate : Rational)
    (hd : 0 ≤ d) (hin : 0 < inRate.num ∧ 0 < inRate.den)
    (hout : 0 < outRate.num ∧ 0 < outRate.den) :
    0 ≤ convert_duration_auto inRate d outRate := by
  unfold convert_duration_auto
  rw [if_neg (by omega)]
  exact Int.ediv_nonneg (mul_nonneg (mul_nonneg hd (le_of_lt hout.1)) (le_of_lt hin.2))
    (le_of_lt (mul_pos hin.1 hout.2))

theorem convert_duration_lower2_nonneg (d : Int) (seq : List Nat) (hd : 0 ≤ d) :
    0 ≤ convert_duration_lower2 d seq := by
  unfold convert_duration_lower2 convert_position_lower
  have h1 : (0 : Int) ≤ d / (seq.sum : Int) := Int.ediv_nonneg hd (by positivity)
  have h2 : (0 : Int) ≤ (seq.length : Int) := by positivity
  have h3 : (0 : Int) ≤ (consume seq (d % (seq.sum : Int)).toNat : Int) := by positivity
  have h4 : (0 : Int) ≤ d / (seq.sum : Int) * (seq.length : Int) := mul_nonneg h1 h2
  omega

/-!
Claim theorems.
-/

/-- Claim C5 (amended): if at least one internal track exists, the clip
edit rate is the first internal file-source-package track edit rate, and
metadata processing fails when any internal FSP track rate differs from
it. Otherwise the clip edit rate is the first external track whose
single-precision (binary32) quotient `numerator / (float)denominator`
is minimal among all the external tracks' single-precision quotients
(so single-precision ties are broken by track order, and the returned
rate need not be the exactly-lowest one), provided that quotient is
strictly below the binary32 value 1000000.0 (the initial value of the
comparison loop); when no external track's quotient is below it the loop
never adopts a rate and processing fails the `mEditRate.numerator != 0`
check instead of returning the lowest rate. -/
theorem clip_edit_rate_spec :
    (∀ (r : Rational) (rest : List Rational),
      ((∀ x ∈ rest, x = r) → setClipEditRateInternal (r :: rest) none = some r) ∧
      ((∃ x ∈ rest, x ≠ r) → setClipEditRateInternal (r :: rest) none = none)) ∧
    (∀ rates : List Rational,
      ((∀ r ∈ rates, f32lt (trackEditRateF32 r) (f32OfNat 1000000) = false) →
        setClipEditRateExternal rates = none) ∧
      ((∃ r ∈ rates, f32lt (trackEditRateF32 r) (f32OfNat 1000000) = true) →
        (∀ r ∈ rates, r.num ≠ 0) →
        ∃ res, setClipEditRateExternal rates = some res ∧ res ∈ rates ∧
          ∀ r ∈ rates, f32lt (trackEditRateF32 r) (trackEditRateF32 res) = false)) := by
  constructor
  · intro r rest
    exact ⟨fun h => setClipEditRateInternal_all_eq r rest h,
           fun h => setClipEditRateInternal_exists_ne r rest h⟩
  · intro rates
    constructor
    · intro hall
      unfold setClipEditRateExternal
      rcases lowestExternalRateLoop_spec rates ⟨0, 1⟩ (f32OfNat 1000000)
        with ⟨h1, _⟩ | ⟨h1, h2, _⟩
      · dsimp only
        rw [h1]
        rfl
      · rw [hall _ h1] at h2
        exact absurd h2 (by simp)
    · intro ⟨w, hw, hwlt⟩ hnz
      unfold setClipEditRateExternal
      rcases lowestExternalRateLoop_spec rates ⟨0, 1⟩ (f32OfNat 1000000)
        with ⟨_, h2⟩ | ⟨h1, _, h3⟩
      · rw [h2 w hw] at hwlt
        exact absurd hwlt (by simp)
      · refine ⟨lowestExternalRateLoop rates ⟨0, 1⟩ (f32OfNat 1000000), ?_, h1, h3⟩
        dsimp only
        rw [if_neg (hnz _ h1)]

/-- Counterexample for claim C5 as stated ("the clip edit rate equals the
lowest edit rate among the external tracks' edit rates"). First: a single
external track at 1000000/1 — the running lowest starts at the binary32
value 1000000.0 and the strict comparison fails, so no rate is adopted
and the edit-rate check fails (`none`) instead of yielding the lowest
rate. Second: rates 16777217/16777216 and 1/1 have the same binary32
quotient (1.0f, since 16777217 rounds to 2^24), so the loop keeps the
first, exactly-larger rate even though 1/1 is strictly lower as an exact
rational. -/
theorem clip_edit_rate_lowest_counterexample :
    setClipEditRateExternal [⟨1000000, 1⟩] = none ∧
    setClipEditRateExternal [⟨16777217, 16777216⟩, ⟨1, 1⟩] = some ⟨16777217, 16777216⟩ ∧
    (⟨1, 1⟩ : Rational).q < (⟨16777217, 16777216⟩ : Rational).q := by
  refine ⟨by decide, by decide, ?_⟩
  norm_num [Rational.q]

/-- Witness for claim C5: internal tracks at 25/1 agree; external rates
48000/1 and 25/1 yield the rate 25/1, whose binary32 quotient no other
track's quotient undercuts. -/
theorem clip_edit_rate_spec_witness :
    setClipEditRateInternal [⟨25, 1⟩, ⟨25, 1⟩] none = some ⟨25, 1⟩ ∧
    ∃ res, setClipEditRateExternal [⟨48000, 1⟩, ⟨25, 1⟩] = some res ∧
      res ∈ [(⟨48000, 1⟩ : Rational), ⟨25, 1⟩] ∧
      ∀ r ∈ [(⟨48000, 1⟩ : Rational), ⟨25, 1⟩],
        f32lt (trackEditRateF32 r) (trackEditRateF32 res) = false :=
  ⟨(clip_edit_rate_spec.1 ⟨25, 1⟩ [⟨25, 1⟩]).1 (by decide),
   (clip_edit_rate_spec.2 [⟨48000, 1⟩, ⟨25, 1⟩]).2
     ⟨⟨25, 1⟩, by decide, by decide⟩
     (by decide)⟩

/-- Claim C3: for a complete file, `GetMaxPrecharge(p, false)` is at most 0
and `GetMaxRollout(p, false)` is at least 0 whenever they return (rather
than raise the mixed-edit-rate exception); and at a legitimate target
position with an index entry, the internal precharge is derived from that
entry: for a B-frame target (non-zero `temporal_offset`) it is
`temporal_offset` plus the `key_frame_offset` of the entry at
`position + temporal_offset`, otherwise the entry's own
`key_frame_offset`, with any positive value clamped to 0. -/
theorem precharge_rollout_spec :
    (∀ (clipRate : Rational) (ie : Bool) (c : InternalCtx) (exts : List PRExternal)
       (target v : Int),
       GetMaxPrecharge clipRate ie c exts target = some v → v ≤ 0) ∧
    (∀ (clipRate : Rational) (ie : Bool) (c : InternalCtx) (exts : List PRExternal)
       (target v : Int),
       GetMaxRollout clipRate ie c exts target = some v → 0 ≤ v) ∧
    (∀ (c : InternalCtx) (target : Int) (entry : IndexEntry),
       c.hasEssenceReader = true → c.haveInterFrame = true →
       c.legitimise (target + c.fileOrigin) - c.fileOrigin = target →
       c.indexEntry (target + c.fileOrigin) = some entry →
       ((entry.temporalOffset = 0 →
          GetInternalPrecharge c target false = min entry.keyFrameOffset 0) ∧
        (∀ anchor : IndexEntry, entry.temporalOffset ≠ 0 →
          c.indexEntry (target + entry.temporalOffset + c.fileOrigin) = some anchor →
          GetInternalPrecharge c target false =
            min (entry.temporalOffset + anchor.keyFrameOffset) 0))) := by
  refine ⟨?_, ?_, ?_⟩
  · intro clipRate ie c exts target v h
    unfold GetMaxPrecharge at h
    dsimp only at h
    split at h
    · exact absurd h (by simp)
    · have hv := Option.some.inj h
      rw [← hv]
      split <;> omega
  · intro clipRate ie c exts target v h
    unfold GetMaxRollout at h
    dsimp only at h
    split at h
    · exact absurd h (by simp)
    · have hv := Option.some.inj h
      rw [← hv]
      split <;> omega
  · intro c target entry h1 h2 h3 h4
    constructor
    · intro ht0
      simp only [GetInternalPrecharge, GetInternalIndexEntry, h1, h2, h3, h4, ht0,
        Bool.not_true, Bool.or_self, Bool.false_eq_true, if_false, if_true, ite_true,
        ite_false, ne_eq, not_true_eq_false, eq_self_iff_true, and_false]
      split <;> omega
    · intro anchor ht0 hanchor
      simp only [GetInternalPrecharge, GetInternalIndexEntry, h1, h2, h3, h4, hanchor,
        ht0, Bool.not_true, Bool.or_self, Bool.false_eq_true, if_false, if_true,
        ite_true, ite_false, ne_eq, not_true_eq_false, eq_self_iff_true, and_false,
        not_false_eq_true]
      split <;> omega

/-- Witness for claim C3: an index table whose entry at position 2 has
`temporal_offset = 0` and `key_frame_offset = -2` gives internal
precharge `-2` at position 2; the aggregate precharge at a reader with no
externals is `-2` (at most 0) as well. -/
theorem precharge_rollout_spec_witness :
    GetInternalPrecharge
      ⟨true, true, 0, fun p => p,
       fun p => if p = 2 then some ⟨0, -2⟩ else none⟩ 2 false = min (-2 : Int) 0 ∧
    (-2 : Int) ≤ 0 :=
  ⟨(precharge_rollout_spec.2.2
      ⟨true, true, 0, fun p => p,
       fun p => if p = 2 then some ⟨0, -2⟩ else none⟩ 2 ⟨0, -2⟩
      rfl rfl (by norm_num) (by norm_num)).1 rfl,
   precharge_rollout_spec.1 ⟨25, 1⟩ true
      ⟨true, true, 0, fun p => p,
       fun p => if p = 2 then some ⟨0, -2⟩ else none⟩ [] 2 (-2) (by norm_num [GetMaxPrecharge, GetInternalPrecharge, GetInternalIndexEntry])⟩

/-- Claim C4: after metadata processing the clip duration is the minimum
of the internal track durations converted to the clip edit rate and the
external reader durations converted by sample-sequence arithmetic, and it
is unknown (`-1`, negative) whenever any contributor is unknown
(negative). -/
theorem clip_duration_spec (clipRate : Rational) (internals : List (Rational × Int))
    (externals : List (Int × List Nat))
    (hrates : ∀ t ∈ internals, 0 < t.1.num ∧ 0 < t.1.den)
    (hclip : 0 < clipRate.num ∧ 0 < clipRate.den) :
    (((∀ t ∈ internals, 0 ≤ t.2) ∧ (∀ t ∈ externals, 0 ≤ t.1)) →
      (internals ≠ [] ∨ externals ≠ []) →
      (processDuration clipRate internals externals ∈
          internals.map (fun t => convert_duration_auto t.1 t.2 clipRate) ++
          externals.map (fun t => convert_duration_lower2 t.1 t.2) ∧
       ∀ v ∈ internals.map (fun t => convert_duration_auto t.1 t.2 clipRate) ++
              externals.map (fun t => convert_duration_lower2 t.1 t.2),
         processDuration clipRate internals externals ≤ v)) ∧
    (((∃ t ∈ internals, t.2 < 0) ∨ (∃ t ∈ externals, t.1 < 0)) →
      processDuration clipRate internals externals = -1) := by
  constructor
  · intro ⟨hnn1, hnn2⟩ hne
    have hnegf1 : ∀ t ∈ internals, decide (t.2 < 0) = false :=
      fun t ht => decide_eq_false (by have := hnn1 t ht; omega)
    have hnegf2 : ∀ t ∈ externals, decide (t.1 < 0) = false :=
      fun t ht => decide_eq_false (by have := hnn2 t ht; omega)
    have hconv1 : ∀ t ∈ internals, 0 ≤ convert_duration_auto t.1 t.2 clipRate :=
      fun t ht => convert_duration_auto_nonneg t.1 t.2 clipRate (hnn1 t ht) (hrates t ht) hclip
    have hconv2 : ∀ t ∈ externals, 0 ≤ convert_duration_lower2 t.1 t.2 :=
      fun t ht => convert_duration_lower2_nonneg t.1 t.2 (hnn2 t ht)
    unfold processDuration
    cases internals with
    | nil =>
      cases externals with
      | nil => simp at hne
      | cons x rest =>
        simp only [durationMinLoop, hnegf2 x (List.mem_cons_self x rest),
          Bool.false_eq_true, if_false, List.map_nil, List.nil_append, List.map_cons,
          true_or, if_true]
        rw [if_pos (by decide : (-2 : Int) ≠ -1)]
        obtain ⟨hm, hmin⟩ := durationMinLoop_min
          (fun x : Int × List Nat => convert_duration_lower2 x.1 x.2)
          (fun x : Int × List Nat => decide (x.1 < 0)) rest
          (convert_duration_lower2 x.1 x.2)
          (hconv2 x (List.mem_cons_self x rest))
          (fun y hy => hnegf2 y (List.mem_cons_of_mem x hy))
          (fun y hy => hconv2 y (List.mem_cons_of_mem x hy))
        exact ⟨hm, hmin⟩
    | cons x rest =>
      simp only [durationMinLoop, hnegf1 x (List.mem_cons_self x rest),
        Bool.false_eq_true, if_false, List.map_cons, true_or, if_true]
      obtain ⟨hm1, hmin1⟩ := durationMinLoop_min
        (fun t : Rational × Int => convert_duration_auto t.1 t.2 clipRate)
        (fun t : Rational × Int => decide (t.2 < 0)) rest
        (convert_duration_auto x.1 x.2 clipRate)
        (hconv1 x (List.mem_cons_self x rest))
        (fun y hy => hnegf1 y (List.mem_cons_of_mem x hy))
        (fun y hy => hconv1 y (List.mem_cons_of_mem x hy))
      have hd1nn : 0 ≤ durationMinLoop
          (fun t : Rational × Int => convert_duration_auto t.1 t.2 clipRate)
          (fun t : Rational × Int => decide (t.2 < 0)) rest
          (convert_duration_auto x.1 x.2 clipRate) := by
        rcases List.mem_cons.mp hm1 with e | e
        · rw [e]; exact hconv1 x (List.mem_cons_self x rest)
        · rcases List.mem_map.mp e with ⟨y, hy, hye⟩
          rw [← hye]
          exact hconv1 y (List.mem_cons_of_mem x hy)
      rw [if_pos (by omega)]
      obtain ⟨hm2, hmin2⟩ := durationMinLoop_min
        (fun t : Int × List Nat => convert_duration_lower2 t.1 t.2)
        (fun t : Int × List Nat => decide (t.1 < 0)) externals _ hd1nn hnegf2 hconv2
      constructor
      · rcases List.mem_cons.mp hm2 with e | e
        · rw [e]
          apply List.mem_append_left
          simpa using hm1
        · exact List.mem_append_right _ e
      · intro v hv
        rcases List.mem_append.mp hv with e | e
        · have hv1 : v ∈ (convert_duration_auto x.1 x.2 clipRate) ::
              rest.map (fun t => convert_duration_auto t.1 t.2 clipRate) := by
            simpa using e
          have h1 := hmin1 v hv1
          have h2 := hmin2 _ (List.mem_cons_self _ _)
          omega
        · exact hmin2 v (List.mem_cons_of_mem _ e)
  · intro h
    unfold processDuration
    by_cases h1 : ∃ t ∈ internals, t.2 < 0
    · obtain ⟨t, ht, hlt⟩ := h1
      rw [durationMinLoop_neg _ _ internals (-2) ⟨t, ht, decide_eq_true hlt⟩]
      rw [if_neg (by omega)]
    · rcases h with h | h
      · exact absurd h h1
      · obtain ⟨t, ht, hlt⟩ := h
        dsimp only
        split_ifs with h2
        · exact durationMinLoop_neg _ _ externals _ ⟨t, ht, decide_eq_true hlt⟩
        · omega

/-- Witness for claim C4: one internal track at 50/1 with duration 100
(50 clip units at 25/1), one external reader at 48000 samples/s with
duration 48000 and sequence `[1920]` (25 clip units): the minimum is 25. -/
theorem clip_duration_spec_witness :
    processDuration ⟨25, 1⟩ [(⟨50, 1⟩, 100)] [(48000, [1920])] ∈
        [(⟨50, 1⟩, 100)].map
          (fun t : Rational × Int => convert_duration_auto t.1 t.2 ⟨25, 1⟩) ++
        [((48000 : Int), [1920])].map (fun t => convert_duration_lower2 t.1 t.2) ∧
    ∀ v ∈ [(⟨50, 1⟩, 100)].map
          (fun t : Rational × Int => convert_duration_auto t.1 t.2 ⟨25, 1⟩) ++
        [((48000 : Int), [1920])].map (fun t => convert_duration_lower2 t.1 t.2),
      processDuration ⟨25, 1⟩ [(⟨50, 1⟩, 100)] [(48000, [1920])] ≤ v :=
  (clip_duration_spec ⟨25, 1⟩ [(⟨50, 1⟩, 100)] [(48000, [1920])]
    (by decide) (by decide)).1 ⟨by decide, by decide⟩ (Or.inl (by decide))

/-- Claim C6: for a `RawEssenceReader` with a fixed sample size, not yet at
the last sample (and no `max_read_length` cap, which claim C7 covers),
`ReadSamples(n)` requests `fixed_sample_size * n - buffer_size` bytes in
one `ReadBytes` call (the source delivering `delivered` of them), rounds
the buffer down to whole samples, sets `num_samples` to
`buffer_size / fixed_sample_size` and `sample_data_size` to
`num_samples * fixed_sample_size`, and sets `last_sample_read` exactly when
fewer than `fixed_sample_size * n` bytes ended up in the buffer. -/
theorem raw_read_samples_fixed_size (s : RawReaderState) (n oracle : Nat)
    (rap : RawReaderState → Bool × RawReaderState)
    (hlast : s.lastSampleRead = false) (hfix : 0 < s.fixedSampleSize)
    (hsd : s.sampleDataSize ≤ s.bufSize)
    (hb : s.bufSize - s.sampleDataSize ≤ s.fixedSampleSize * n)
    (hlt : s.fixedSampleSize * n < 4294967296) (hmax : s.maxReadLength = 0) :
    s.ReadSamples n oracle rap =
      (((s.bufSize - s.sampleDataSize) +
          min oracle (s.fixedSampleSize * n - (s.bufSize - s.sampleDataSize))) /
         s.fixedSampleSize,
       { s with
         totalReadLength := s.totalReadLength +
           min oracle (s.fixedSampleSize * n - (s.bufSize - s.sampleDataSize)),
         bufSize := (((s.bufSize - s.sampleDataSize) +
           min oracle (s.fixedSampleSize * n - (s.bufSize - s.sampleDataSize))) /
             s.fixedSampleSize) * s.fixedSampleSize,
         sampleDataSize := (((s.bufSize - s.sampleDataSize) +
           min oracle (s.fixedSampleSize * n - (s.bufSize - s.sampleDataSize))) /
             s.fixedSampleSize) * s.fixedSampleSize,
         numSamples := ((s.bufSize - s.sampleDataSize) +
           min oracle (s.fixedSampleSize * n - (s.bufSize - s.sampleDataSize))) /
             s.fixedSampleSize,
         lastSampleRead :=
           decide ((s.bufSize - s.sampleDataSize) +
             min oracle (s.fixedSampleSize * n - (s.bufSize - s.sampleDataSize)) <
               s.fixedSampleSize * n) }) := by
  have htarget : u32 (s.fixedSampleSize * n) = s.fixedSampleSize * n := by
    unfold u32; omega
  have hsub : u32sub (s.fixedSampleSize * n) (s.bufSize - s.sampleDataSize)
      = s.fixedSampleSize * n - (s.bufSize - s.sampleDataSize) := by
    unfold u32sub u32; omega
  unfold RawReaderState.ReadSamples RawReaderState.ReadBytes
  dsimp only
  rw [htarget, hsub]
  split_ifs with h1 h2 h3 h4 h5 <;>
    (try (exfalso; omega)) <;>
    (try simp_all [Prod.mk.injEq, RawReaderState.mk.injEq])

/-- Witness for claim C6 at a concrete reader: fixed sample size 4, an
empty buffer, request for 3 samples, source delivering only 10 of the 12
requested bytes: 2 whole samples, 8 buffered bytes, last-sample set. -/
theorem raw_read_samples_fixed_size_witness :
    RawReaderState.ReadSamples
      ⟨0, 0, 4, 0, 0, 0, false, false⟩ 3 10 (fun s => (false, s)) =
      (2, ⟨0, 10, 4, 8, 8, 2, false, true⟩) := by
  have h := raw_read_samples_fixed_size ⟨0, 0, 4, 0, 0, 0, false, false⟩ 3 10
    (fun s => (false, s)) rfl (by decide) (by decide) (by decide) (by decide) rfl
  simpa using h

/-- Claim C7: with a configured `max_read_length` cap, the cumulative
`total_read_length` never exceeds the cap across any sequence of
`ReadBytes` / `AppendBytes` calls; each call's return is truncated to the
remaining budget, and once the budget is exhausted both calls return 0 and
leave the reader unchanged. -/
theorem raw_reader_max_read_length_cap (s : RawReaderState)
    (hmax : 0 < s.maxReadLength) (h0 : s.totalReadLength ≤ s.maxReadLength) :
    (∀ ops : List RawOp, (execRawOps s ops).totalReadLength ≤ s.maxReadLength) ∧
    (∀ size oracle : Nat,
      (s.ReadBytes size oracle).1 ≤ s.maxReadLength - s.totalReadLength ∧
      (s.AppendBytes size).1 ≤ s.maxReadLength - s.totalReadLength) ∧
    (s.totalReadLength = s.maxReadLength → ∀ size oracle : Nat,
      s.ReadBytes size oracle = (0, s) ∧ s.AppendBytes size = (0, s)) := by
  refine ⟨fun ops => execRawOps_total_le ops s hmax h0, fun size oracle => ⟨?_, ?_⟩, ?_⟩
  · unfold RawReaderState.ReadBytes
    dsimp only
    split
    · split
      · omega
      · dsimp only
        omega
    · rename_i hc
      split
      · omega
      · dsimp only
        push_neg at hc
        have := hc hmax
        omega
  · unfold RawReaderState.AppendBytes
    dsimp only
    split
    · split
      · omega
      · dsimp only
        omega
    · rename_i hc
      split
      · omega
      · dsimp only
        push_neg at hc
        have := hc hmax
        omega
  · intro hfull size oracle
    constructor
    · unfold RawReaderState.ReadBytes
      dsimp only
      split
      · rename_i hc
        rw [if_pos (by omega)]
      · rename_i hc
        push_neg at hc
        have hsz : size = 0 := by
          have := hc hmax
          omega
        rw [if_pos hsz]
    · unfold RawReaderState.AppendBytes
      dsimp only
      split
      · rename_i hc
        rw [if_pos (by omega)]
      · rename_i hc
        push_neg at hc
        have hsz : size = 0 := by
          have := hc hmax
          omega
        rw [if_pos hsz]

/-- Witness for claim C7: cap of 10 bytes, two 7-byte reads with an eager
source stay within budget. -/
theorem raw_reader_max_read_length_cap_witness :
    (execRawOps ⟨10, 0, 0, 0, 0, 0, false, false⟩
      [RawOp.read 7 100, RawOp.read 7 100]).totalReadLength ≤ 10 :=
  (raw_reader_max_read_length_cap ⟨10, 0, 0, 0, 0, 0, false, false⟩
    (by decide) (by decide)).1 [RawOp.read 7 100, RawOp.read 7 100]

/-- Claim C8: the comparator `compare_track_reader` is not irreflexive on
keys with material track number 0 and material track id 0 — it reports a
key as strictly preceding itself, so it is not a strict weak ordering and
`std::stable_sort` is not guaranteed (not even permitted, as this is
undefined behaviour) to keep such equal tracks in their original relative
order. -/
theorem compare_track_reader_not_irreflexive :
    compare_track_reader ⟨0, 0, 0⟩ ⟨0, 0, 0⟩ = true := by decide

/-- Claim C9: once `last_sample_read` is set, `ReadSamples` returns 0
immediately without touching the reader (in particular no source bytes are
consumed and buffer/counters are unchanged); `ReadBytes` / `AppendBytes`
never change the flag; `Reset` clears the flag (after re-seeking the
source to its start) along with the read accounting. -/
theorem raw_reader_last_sample_latch (s : RawReaderState) (n oracle : Nat)
    (rap : RawReaderState → Bool × RawReaderState) :
    (s.lastSampleRead = true → s.ReadSamples n oracle rap = (0, s)) ∧
    ((s.Reset).lastSampleRead = false ∧ (s.Reset).readFirstSample = false ∧
     (s.Reset).totalReadLength = 0 ∧ (s.Reset).bufSize = 0 ∧
     (s.Reset).sampleDataSize = 0 ∧ (s.Reset).numSamples = 0) ∧
    (∀ size oracle2 : Nat,
      (s.ReadBytes size oracle2).2.lastSampleRead = s.lastSampleRead ∧
      (s.AppendBytes size).2.lastSampleRead = s.lastSampleRead) := by
  refine ⟨fun h => ?_, ⟨rfl, rfl, rfl, rfl, rfl, rfl⟩, fun size oracle2 => ⟨?_, ?_⟩⟩
  · unfold RawReaderState.ReadSamples
    rw [h]
    simp
  · unfold RawReaderState.ReadBytes
    dsimp only
    split <;> split <;> rfl
  · unfold RawReaderState.AppendBytes
    dsimp only
    split <;> split <;> rfl

/-- Witness for claim C9: a latched reader returns 0 and is unchanged. -/
theorem raw_reader_last_sample_latch_witness :
    RawReaderState.ReadSamples ⟨0, 5, 4, 3, 0, 0, true, true⟩ 7 100
      (fun s => (true, s)) = (0, ⟨0, 5, 4, 3, 0, 0, true, true⟩) :=
  (raw_reader_last_sample_latch ⟨0, 5, 4, 3, 0, 0, true, true⟩ 7 100
    (fun s => (true, s))).1 rfl

/-- Claim C10: `GetFixedLeadFillerOffset` returns the common converted
(round-up, material edit rate to clip edit rate) lead-filler offset when
all track readers agree on it, and 0 when any two tracks' converted
offsets differ or when there are no track readers. -/
theorem fixed_lead_filler_offset_spec (clipRate : Rational)
    (tracks : List (Rational × Int)) :
    (tracks = [] → GetFixedLeadFillerOffset clipRate tracks = 0) ∧
    (∀ v : Int, tracks ≠ [] →
      (∀ t ∈ tracks, convert_position_round_up t.1 t.2 clipRate = v) →
      GetFixedLeadFillerOffset clipRate tracks = v) ∧
    (∀ t1 ∈ tracks, ∀ t2 ∈ tracks,
      convert_position_round_up t1.1 t1.2 clipRate ≠
        convert_position_round_up t2.1 t2.2 clipRate →
      GetFixedLeadFillerOffset clipRate tracks = 0) := by
  refine ⟨fun h => by subst h; rfl, fun v hne hall => ?_, fun t1 h1 t2 h2 hne => ?_⟩
  · cases tracks with
    | nil => exact absurd rfl hne
    | cons t rest =>
      have hh := hall t (by simp)
      simp only [GetFixedLeadFillerOffset, hh]
      exact fixedLeadLoop_all_eq clipRate v rest fun x hx => hall x (by simp [hx])
  · cases tracks with
    | nil => simp at h1
    | cons t rest =>
      simp only [GetFixedLeadFillerOffset]
      apply fixedLeadLoop_exists_ne
      rcases List.mem_cons.mp h1 with e1 | e1
      · rcases List.mem_cons.mp h2 with e2 | e2
        · exact absurd (e1 ▸ e2 ▸ rfl) hne
        · exact ⟨t2, e2, fun hc => hne (by rw [e1, hc])⟩
      · by_cases hf : convert_position_round_up t1.1 t1.2 clipRate =
            convert_position_round_up t.1 t.2 clipRate
        · rcases List.mem_cons.mp h2 with e2 | e2
          · exact ⟨t1, e1, fun hc => hne (by rw [hc, e2])⟩
          · exact ⟨t2, e2, fun hc => hne (by rw [hf, hc])⟩
        · exact ⟨t1, e1, hf⟩

/-- Witness for claim C10: two tracks whose lead-filler offsets convert to
the same clip-rate value 5 yield fixed offset 5. -/
theorem fixed_lead_filler_offset_spec_witness :
    GetFixedLeadFillerOffset ⟨25, 1⟩ [(⟨50, 1⟩, 10), (⟨25, 1⟩, 5)] = 5 :=
  (fixed_lead_filler_offset_spec ⟨25, 1⟩ [(⟨50, 1⟩, 10), (⟨25, 1⟩, 5)]).2.1 5
    (by decide) (by decide)

/-- Claim C1: if an exception is raised during `MXFFileReader::Read` (in
the internal essence pull or while processing any external reader), the
reader calls `AbortRead`, seeks back so that `GetPosition()` equals the
position snapshotted at entry, sets the read-error flag, and `Read`
returns 0. -/
theorem read_exception_aborts_and_restores (s : FileReaderState) (n : Nat) (o : ReadOracle)
    (j : Nat) (hthrow : o.throwStep = some j) (hj : j ≤ s.exts.length)
    (hseq : ∀ e ∈ s.exts, seqOK e.seq) :
    (s.Read n o).1 = 0 ∧ (s.Read n o).2.2 = true ∧
    (s.Read n o).2.1.readError = true ∧
    (s.Read n o).2.1.GetPosition = s.GetPosition := by
  unfold FileReaderState.Read
  rw [hthrow]
  by_cases hj0 : j = 0
  · subst hj0
    rw [if_pos rfl]
    refine ⟨rfl, rfl, rfl, ?_⟩
    exact getPosition_seek s { applyInternal s o.intRead with readError := true }
      (applyInternal_internalEnabled s o.intRead)
      (applyInternal_hasEssenceReader s o.intRead)
      (by rw [show ({ applyInternal s o.intRead with readError := true } :
            FileReaderState).exts = (applyInternal s o.intRead).exts from rfl,
            applyInternal_exts])
      hseq
  · rw [if_neg (by simp [hj0])]
    dsimp only [Option.map]
    rw [applyInternal_exts]
    have hthrew := readExtLoop_throw s.GetPosition s.exts o.extReads (j - 1) n
      (if s.internalEnabled && s.hasEssenceReader then o.intRead else 0) (by omega)
    rw [hthrew, if_pos rfl]
    refine ⟨rfl, rfl, rfl, ?_⟩
    refine getPosition_seek s _ ?_ ?_ ?_ hseq
    · exact applyInternal_internalEnabled s o.intRead
    · exact applyInternal_hasEssenceReader s o.intRead
    · exact readExtLoop_shape s.GetPosition s.exts o.extReads (some (j - 1)) n _

/-- Witness for claim C1: internal essence reader at position 10 with file
origin 3 (clip position 7) and one enabled external reader with sequence
`[2, 3]`; an exception during the external read leaves the reader aborted,
flagged and back at clip position 7. -/
theorem read_exception_aborts_and_restores_witness :
    (FileReaderState.Read ⟨true, true, 10, 3, [⟨true, [2, 3], 16⟩], false⟩ 5
        ⟨4, [5], some 1⟩).1 = 0 ∧
    (FileReaderState.Read ⟨true, true, 10, 3, [⟨true, [2, 3], 16⟩], false⟩ 5
        ⟨4, [5], some 1⟩).2.2 = true ∧
    (FileReaderState.Read ⟨true, true, 10, 3, [⟨true, [2, 3], 16⟩], false⟩ 5
        ⟨4, [5], some 1⟩).2.1.readError = true ∧
    (FileReaderState.Read ⟨true, true, 10, 3, [⟨true, [2, 3], 16⟩], false⟩ 5
        ⟨4, [5], some 1⟩).2.1.GetPosition =
      FileReaderState.GetPosition ⟨true, true, 10, 3, [⟨true, [2, 3], 16⟩], false⟩ :=
  read_exception_aborts_and_restores ⟨true, true, 10, 3, [⟨true, [2, 3], 16⟩], false⟩ 5
    ⟨4, [5], some 1⟩ 1 rfl (by decide) (by decide)

/-- Claim C2: `Read(n, is_top)` never returns more than `n`, including
when the returned count comes from converting an external reader's read
count back to clip edit units; the essence reader and the external
readers are assumed to honour their own contracts (each returns at most
the number of samples requested from it). -/
theorem read_returns_at_most_requested (s : FileReaderState) (n : Nat) (o : ReadOracle)
    (hthrow : o.throwStep = none) (hint : o.intRead ≤ n)
    (hseq : ∀ e ∈ s.exts, seqOK e.seq)
    (hext : ∀ p ∈ s.exts.zip o.extReads, p.1.enabled = true →
      p.2 ≤ extRequested n s.GetPosition p.1.seq) :
    (s.Read n o).1 ≤ n := by
  unfold FileReaderState.Read
  rw [hthrow]
  rw [if_neg (by simp)]
  dsimp only [Option.map]
  rw [applyInternal_exts]
  have hnothrow := readExtLoop_nothrow s.GetPosition s.exts o.extReads n
    (if s.internalEnabled && s.hasEssenceReader then o.intRead else 0)
  rw [hnothrow, if_neg (by simp)]
  dsimp only
  exact readExtLoop_le s.GetPosition n s.exts o.extReads _
    (by split <;> omega) hseq hext

/-- Witness for claim C2: the reader of the C1 witness, with a successful
read of 4 internal samples and 5 external samples, returns at most 5. -/
theorem read_returns_at_most_requested_witness :
    (FileReaderState.Read ⟨true, true, 10, 3, [⟨true, [2, 3], 16⟩], false⟩ 5
        ⟨4, [5], none⟩).1 ≤ 5 :=
  read_returns_at_most_requested ⟨true, true, 10, 3, [⟨true, [2, 3], 16⟩], false⟩ 5
    ⟨4, [5], none⟩ rfl (by decide) (by decide) (by decide)
